import Mathlib

/-!
# Verification of the server-pool selection and health engine

Shallow embedding of the load balancer's core (`serverPool.js`, first
revision, and the request-lifecycle wiring of `worker.js`), together with
proofs of the specified properties.

Modelling conventions:
* JS numbers that the code keeps integral are modelled as `Int`
  (`activeConnections`, `currentIndex`) or `Nat` (`weight`, list indexes).
* JS `%` on integers truncates toward zero, which is `Int.tmod`.
* `Math.floor(Math.random() * n)` is modelled by an oracle `rand : Nat → Nat`
  supplied to `getNextServer`; out-of-range values produce an absent element
  (`none`), exactly as a JS out-of-bounds index yields `undefined` and is then
  caught by the defensive fallback in the source.
* `weightedServerList` holds object references in JS; since the referenced
  objects live in `this.servers` and health is re-read through those
  references at pick time, the list is modelled as the list of server ids,
  resolved against the current `servers` when the list is consulted.
* The fields `gcdWeight`, `maxWeight`, `totalWeight`, `currentWeight` are
  written by `calculateWeights` but read only by commented-out code
  (the GCD-based WRR variant), so they are omitted from the state.
-/

namespace LoadBalancer

/-- One backend record, as built by the `ServerPool` constructor:
`{...s, id: host:port, healthy: true, weight: s.weight ?? 1, activeConnections: 0}`. -/
structure Server where
  host : String
  port : Nat
  id : String
  healthy : Bool
  weight : Nat
  activeConnections : Int
deriving Repr, DecidableEq

/-- Configuration entry for one backend: `{host, port, weight?}`. -/
structure ServerConfig where
  host : String
  port : Nat
  weight : Option Nat
deriving Repr, DecidableEq

/-- Pool state: `this.servers`, `this.algorithm`, `this.currentIndex`,
`this.weightedServerList` (as ids, see module docstring). -/
structure Pool where
  servers : List Server
  algorithm : String
  currentIndex : Int
  weightedServerList : List String
deriving Repr, DecidableEq

/-- `pat.isPrefixOf` tested at every suffix: JS `String.prototype.includes`. -/
def charsInclude (pat : List Char) : List Char → Bool
  | [] => pat.isPrefixOf ([] : List Char)
  | c :: cs => pat.isPrefixOf (c :: cs) || charsInclude pat cs

/-- JS `s.includes(pat)`. -/
def strIncludes (s pat : String) : Bool := charsInclude pat.data s.data

/-- `` `${s.host}:${s.port}` ``, the stable backend identity. -/
def mkId (host : String) (port : Nat) : String := host ++ ":" ++ toString port

/-- `getHealthyServers()`: `this.servers.filter(server => server.healthy)`. -/
def getHealthyServers (p : Pool) : List Server := p.servers.filter (·.healthy)

/-- `getServerById(id)`: `this.servers.find(server => server.id === id)`. -/
def getServerById (p : Pool) (id : String) : Option Server :=
  p.servers.find? (fun s => s.id == id)

/-- `buildWeightedList()` pushes every server (healthy or not) `weight`
times, in configured order; modelled by ids. -/
def weightedIds : List Server → List String
  | [] => []
  | s :: rest => List.replicate s.weight s.id ++ weightedIds rest

/-- `buildWeightedList()` applied to a pool. -/
def buildWeightedList (p : Pool) : Pool :=
  { p with weightedServerList := weightedIds p.servers }

/-- `recalculateWeightsIfNeeded()`: rebuild only when the algorithm name
contains `"WEIGHTED"` (the `calculateWeights` part writes only dead fields). -/
def recalculateWeightsIfNeeded (p : Pool) : Pool :=
  if strIncludes p.algorithm "WEIGHTED" then buildWeightedList p else p

/-- The `ServerPool` constructor. -/
def mkPool (cfgs : List ServerConfig) (algorithm : String) : Pool :=
  let servers := cfgs.map fun c =>
    { host := c.host, port := c.port, id := mkId c.host c.port,
      healthy := true, weight := c.weight.getD 1, activeConnections := 0 }
  let base : Pool :=
    { servers := servers, algorithm := algorithm, currentIndex := -1,
      weightedServerList := [] }
  if strIncludes algorithm "WEIGHTED" then buildWeightedList base else base

/-- `incrementConnections`: bump the first server with the given id
(`getServerById` aliasing), leave everything else untouched. -/
def incConn : List Server → String → List Server
  | [], _ => []
  | s :: rest, sid =>
    if s.id == sid then { s with activeConnections := s.activeConnections + 1 } :: rest
    else s :: incConn rest sid

/-- `incrementConnections(serverId)` on the pool. -/
def incrementConnections (sid : String) (p : Pool) : Pool :=
  { p with servers := incConn p.servers sid }

/-- `decrementConnections`: guarded decrement of the first server with the
given id (`if (server && server.activeConnections > 0)`). -/
def decConn : List Server → String → List Server
  | [], _ => []
  | s :: rest, sid =>
    if s.id == sid then
      (if s.activeConnections > 0 then
        { s with activeConnections := s.activeConnections - 1 } else s) :: rest
    else s :: decConn rest sid

/-- `decrementConnections(serverId)` on the pool. -/
def decrementConnections (sid : String) (p : Pool) : Pool :=
  { p with servers := decConn p.servers sid }

/-- `markServerUnhealthy(server, reason)`: the caller obtains `server` from
the pool (by `getServerById` or iteration), so this flips the first server
with the given id. -/
def setUnhealthyFirst : List Server → String → List Server
  | [], _ => []
  | s :: rest, sid =>
    if s.id == sid then { s with healthy := false } :: rest
    else s :: setUnhealthyFirst rest sid

/-- `markServerUnhealthy` on the pool. -/
def markServerUnhealthy (sid : String) (p : Pool) : Pool :=
  { p with servers := setUnhealthyFirst p.servers sid }

/-- Resolve one stored id of `weightedServerList` against the live server
records: the record if it exists and is healthy, nothing otherwise. -/
def resolveId (full : List Server) (i : String) : Option Server :=
  match full.find? (fun s => s.id == i) with
  | some s => if s.healthy then some s else none
  | none => none

/-- `this.weightedServerList.filter(ws => ws.healthy)`: each stored reference
re-reads the live `healthy` flag, modelled by resolving the id against the
current `servers`. -/
def healthyWeighted (p : Pool) : List Server :=
  p.weightedServerList.filterMap (resolveId p.servers)

/-- The `switch (this.algorithm)` block of `getNextServer`: given the
(possibly refreshed) healthy list `hs` and the health-filtered weighted list
`hwl`, produce the tentatively chosen server (possibly absent, as in JS where
an out-of-range index yields `undefined`) and the pool with the cursor
mutation applied. -/
def algStep (rand : Nat → Nat) (hs hwl : List Server) (p : Pool) :
    Option Server × Pool :=
  if p.algorithm = "RANDOM" then
    (hs.get? (rand hs.length), p)
  else if p.algorithm = "WEIGHTED_RANDOM" then
    (if hwl.isEmpty then none else hwl.get? (rand hwl.length), p)
  else if p.algorithm = "WEIGHTED_ROUND_ROBIN" then
    if hwl.isEmpty then (none, p)
    else
      ((if 0 ≤ (p.currentIndex + 1).tmod hwl.length then
          hwl.get? ((p.currentIndex + 1).tmod hwl.length).toNat else none),
       { p with currentIndex := (p.currentIndex + 1).tmod hwl.length })
  else
    -- `case 'ROUND_ROBIN': default:`
    ((if 0 ≤ (p.currentIndex + 1).tmod hs.length then
        hs.get? ((p.currentIndex + 1).tmod hs.length).toNat else none),
     { p with currentIndex := (p.currentIndex + 1).tmod hs.length })

/-- The algorithm dispatch followed by the defensive
`chosenServer = healthyServers[0]` fallback (lines 155-158) and the final
`incrementConnections` (lines 160-162). -/
def selectByAlgorithm (rand : Nat → Nat) (hs hwl : List Server) (p : Pool) :
    Option String × Pool :=
  let step := algStep rand hs hwl p
  let chosen : Option Server :=
    match step.1 with
    | some s => some s
    | none => if hs.isEmpty then none else hs.get? 0
  match chosen with
  | some s => (some s.id, incrementConnections s.id step.2)
  | none => (none, step.2)

/-- The sticky lookup of lines 79-88: JS truthiness makes the empty string
behave like an absent id; otherwise search the healthy list. -/
def stickyTarget (sticky : Option String) (hs : List Server) : Option Server :=
  match sticky with
  | some sid => if sid = "" then none else hs.find? (fun s => s.id == sid)
  | none => none

/-- Lines 93-164 of `getNextServer` once the sticky lookup has missed:
compute the live weighted view, possibly take the weighted-empty fallback
that overwrites `this.algorithm` with `ROUND_ROBIN` (after re-reading and
re-checking the healthy list), then run the dispatch. -/
def dispatchPhase (rand : Nat → Nat) (p : Pool) : Option String × Pool :=
  let hwl := healthyWeighted p
  if strIncludes p.algorithm "WEIGHTED" && hwl.isEmpty then
    let hs2 := getHealthyServers p
    if hs2.isEmpty then (none, p)
    else selectByAlgorithm rand hs2 hwl { p with algorithm := "ROUND_ROBIN" }
  else
    selectByAlgorithm rand (getHealthyServers p) hwl p

/-- `getNextServer(stickySessionId = null)`: empty-pool early return, sticky
lookup, then the dispatch phase. Returns the chosen server's id and the
updated pool. -/
def getNextServer (rand : Nat → Nat) (sticky : Option String) (p : Pool) :
    Option String × Pool :=
  let healthyServers := getHealthyServers p
  if healthyServers.isEmpty then (none, p) else
  match stickyTarget sticky healthyServers with
  | some t => (some t.id, incrementConnections t.id p)
  | none => dispatchPhase rand p

/-- `updateServers(newServersConfig)`: JS `Map` keeps the last binding for a
key, so the lookup into the previous set searches the reversed list. -/
def mapLookup (old : List Server) (id : String) : Option Server :=
  old.reverse.find? (fun s => s.id == id)

/-- `updateServers`: rebuild `this.servers` retaining `healthy` and
`activeConnections` for surviving ids, reset `currentIndex`, then
`recalculateWeightsIfNeeded`. -/
def updateServers (cfgs : List ServerConfig) (p : Pool) : Pool :=
  let old := p.servers
  let servers := cfgs.map fun c =>
    let id := mkId c.host c.port
    match mapLookup old id with
    | some ex =>
      { host := c.host, port := c.port, id := id, healthy := ex.healthy,
        weight := c.weight.getD 1, activeConnections := ex.activeConnections }
    | none =>
      { host := c.host, port := c.port, id := id, healthy := true,
        weight := c.weight.getD 1, activeConnections := 0 }
  recalculateWeightsIfNeeded
    { p with servers := servers, currentIndex := -1 }

/-- A finite sequence of `pick` calls; each input supplies the randomness
oracle and the sticky id for one call. Returns the picked ids in order and
the final pool. -/
def runPicks : List ((Nat → Nat) × Option String) → Pool → List (Option String) × Pool
  | [], p => ([], p)
  | (r, st) :: rest, p =>
    let c := getNextServer r st p
    let rec' := runPicks rest c.2
    (c.1 :: rec'.1, rec'.2)

/-- Each backend repeated `weight` times as full records: the value
`buildWeightedList` would contain under the JS aliasing once the ids are
resolved. Used to state what the live weighted view contains. -/
def expand : List Server → List Server
  | [] => []
  | s :: rest => List.replicate s.weight s ++ expand rest

/-- Whether a `pick` call's sticky id resolves to a healthy backend
(the condition of lines 79-85, including JS truthiness of the id). -/
def stickyResolves (sticky : Option String) (p : Pool) : Bool :=
  (stickyTarget sticky (getHealthyServers p)).isSome

/-- Whether a `pick` call takes the weighted-empty fallback of lines 93-101:
healthy backends remain, the sticky id (if any) did not resolve, the
algorithm name contains `WEIGHTED`, and the live weighted view is empty. -/
def takesWeightedFallback (sticky : Option String) (p : Pool) : Bool :=
  !(getHealthyServers p).isEmpty && !stickyResolves sticky p &&
    (strIncludes p.algorithm "WEIGHTED" && (healthyWeighted p).isEmpty)

/-- The events that can conclude a proxied request, as observed by the
handlers wired in `requestHandler` (worker.js): the response `finish` event,
the request `close` event (carrying the value of `res.writableEnded` at that
moment), and an upstream proxy error. -/
inductive ReqEvent where
  | finish
  | clientClose (writableEnded : Bool)
  | proxyError
deriving Repr, DecidableEq

/-- How many `decrementConnections` calls the handlers registered by
`requestHandler` fire on one event: the `proxy.web` per-call error callback
(worker.js line 96) fires on an upstream proxy error; the `res.on('finish')`
handler (line 103) fires on finish; the `req.on('close')` handler
(lines 108-113) fires on close and decrements only when `res.writableEnded`
is still false. -/
def eventDecrements : ReqEvent → Nat
  | .finish => 1
  | .clientClose we => if we then 0 else 1
  | .proxyError => 1

/-- Total decrements fired over the events observed for one request. -/
def traceDecrements (tr : List ReqEvent) : Nat :=
  (tr.map eventDecrements).sum

/-- The four-backend weighted pool of the WRR scenario:
`[{A,w=5},{B,w=3},{C,w=1},{D,w=1}]`. -/
def cfgABCD : List ServerConfig :=
  [⟨"A", 1, some 5⟩, ⟨"B", 2, some 3⟩, ⟨"C", 3, some 1⟩, ⟨"D", 4, some 1⟩]

/-- The WRR scenario pool, freshly constructed. -/
def poolABCD : Pool := mkPool cfgABCD "WEIGHTED_ROUND_ROBIN"

/-- A weighted pool whose only backend has weight 0: its weighted sequence
is empty while a healthy backend remains, so a `pick` takes the fallback. -/
def poolW0 : Pool := mkPool [⟨"a", 1, some 0⟩] "WEIGHTED_ROUND_ROBIN"

/-- A two-backend weighted pool used to exhibit unhealthy entries in
`weightedServerList`. -/
def poolAB : Pool := mkPool [⟨"a", 1, some 1⟩, ⟨"b", 2, some 1⟩] "WEIGHTED_ROUND_ROBIN"

/-- The record for backend `a` of `poolAB` as built by the constructor. -/
def serverA : Server :=
  { host := "a", port := 1, id := "a:1", healthy := true, weight := 1,
    activeConnections := 0 }

/-- The record for backend `b` of `poolAB` as built by the constructor. -/
def serverB : Server :=
  { host := "b", port := 2, id := "b:2", healthy := true, weight := 1,
    activeConnections := 0 }

-- Sanity checks of the embedding on concrete inputs (kept as examples).
example : strIncludes "WEIGHTED_ROUND_ROBIN" "WEIGHTED" = true := by decide
example : strIncludes "ROUND_ROBIN" "WEIGHTED" = false := by decide
example : mkId "localhost" 3001 = "localhost:3001" := by decide

example :
    (getNextServer (fun _ => 0) none
      (mkPool [⟨"A", 1, none⟩, ⟨"B", 2, none⟩] "ROUND_ROBIN")).1 = some "A:1" := by
  decide

/-! ## Helper lemmas about the list operations of the pool -/

/-- With distinct ids, `find` by a member's id returns that member. -/
theorem find?_id_eq_self {l : List Server}
    (hnd : (l.map (fun s => s.id)).Nodup) {s : Server} (hmem : s ∈ l) :
    l.find? (fun t => t.id == s.id) = some s := by
  induction l with
  | nil => cases hmem
  | cons h t ih =>
    simp only [List.map_cons, List.nodup_cons] at hnd
    rcases List.mem_cons.mp hmem with rfl | hmem'
    · exact List.find?_cons_of_pos _ (by simp)
    · have hne : ¬(h.id == s.id) = true := by
        simp only [beq_iff_eq]
        intro he
        exact hnd.1 (he ▸ List.mem_map_of_mem (fun s => s.id) hmem')
      have hstep : (h :: t).find? (fun t => t.id == s.id) =
          t.find? (fun t => t.id == s.id) := List.find?_cons_of_neg _ hne
      rw [hstep]
      exact ih hnd.2 hmem'

/-- `incConn` touches only the `activeConnections` field. -/
theorem incConn_proj (l : List Server) (sid : String) :
    (incConn l sid).map (fun s => (s.id, s.healthy, s.weight)) =
      l.map (fun s => (s.id, s.healthy, s.weight)) := by
  induction l with
  | nil => rfl
  | cons h t ih =>
    by_cases hc : (h.id == sid) = true
    · simp [incConn, hc]
    · simp [incConn, hc, ih]

/-- `decConn` touches only the `activeConnections` field. -/
theorem decConn_proj (l : List Server) (sid : String) :
    (decConn l sid).map (fun s => (s.id, s.healthy, s.weight)) =
      l.map (fun s => (s.id, s.healthy, s.weight)) := by
  induction l with
  | nil => rfl
  | cons h t ih =>
    by_cases hc : (h.id == sid) = true
    · by_cases hz : h.activeConnections > 0 <;> simp [decConn, hc, hz]
    · simp [decConn, hc, ih]

/-- Every record of `incConn l sid` matches a record of `l` on all fields
except possibly `activeConnections`. -/
theorem incConn_mem_proj {l : List Server} {sid : String} {s' : Server}
    (h : s' ∈ incConn l sid) :
    ∃ s ∈ l, s'.id = s.id ∧ s'.healthy = s.healthy ∧ s'.weight = s.weight := by
  have hp := incConn_proj l sid
  have : (s'.id, s'.healthy, s'.weight) ∈ l.map (fun s => (s.id, s.healthy, s.weight)) := by
    rw [← hp]
    exact List.mem_map_of_mem _ h
  rcases List.mem_map.mp this with ⟨s, hs, he⟩
  rw [Prod.mk.injEq, Prod.mk.injEq] at he
  exact ⟨s, hs, he.1.symm, he.2.1.symm, he.2.2.symm⟩

/-- `weightedIds` depends only on the ids and weights. -/
theorem weightedIds_incConn (l : List Server) (sid : String) :
    weightedIds (incConn l sid) = weightedIds l := by
  induction l with
  | nil => rfl
  | cons h t ih =>
    by_cases hc : (h.id == sid) = true
    · simp [incConn, hc, weightedIds]
    · simp [incConn, hc, weightedIds, ih]

/-- With distinct ids, `incConn` at a member's id bumps exactly that member's
counter and leaves every other record unchanged. -/
theorem incConn_eq_map {l : List Server} (sid : String)
    (hnd : (l.map (fun s => s.id)).Nodup) :
    incConn l sid = l.map (fun s =>
      if s.id = sid then { s with activeConnections := s.activeConnections + 1 } else s) := by
  induction l with
  | nil => rfl
  | cons h t ih =>
    simp only [List.map_cons, List.nodup_cons] at hnd
    by_cases hc : (h.id == sid) = true
    · have hid : h.id = sid := by simpa using hc
      have ht : ∀ s ∈ t, ¬(s.id = sid) := by
        intro s hs he
        exact hnd.1 (by rw [hid, ← he]; exact List.mem_map_of_mem (fun s => s.id) hs)
      have : t.map (fun s =>
          if s.id = sid then { s with activeConnections := s.activeConnections + 1 } else s) = t := by
        rw [List.map_congr_left (fun s hs => if_neg (ht s hs))]
        simp
      simp [incConn, hc, hid, this]
    · have hid : ¬(h.id = sid) := by simpa using hc
      simp [incConn, hc, hid, ih hnd.2]

/-- With distinct ids, bumping a member's counter produces a record with the
same id and health and a counter one higher. -/
theorem incConn_bumped {l : List Server} {s : Server} (hmem : s ∈ l)
    (hnd : (l.map (fun t => t.id)).Nodup) :
    ∃ s' ∈ incConn l s.id, s'.id = s.id ∧ s'.healthy = s.healthy ∧
      s'.activeConnections = s.activeConnections + 1 := by
  rw [incConn_eq_map s.id hnd]
  refine ⟨{ s with activeConnections := s.activeConnections + 1 }, ?_, rfl, rfl, rfl⟩
  have : (fun t => if t.id = s.id then
      { t with activeConnections := t.activeConnections + 1 } else t) s =
      { s with activeConnections := s.activeConnections + 1 } := by
    simp
  exact this ▸ List.mem_map_of_mem _ hmem

/-- Members of the live weighted view are healthy members of the pool. -/
theorem healthyWeighted_mem {p : Pool} {s : Server} (h : s ∈ healthyWeighted p) :
    s ∈ p.servers ∧ s.healthy = true := by
  unfold healthyWeighted at h
  rcases List.mem_filterMap.mp h with ⟨i, _, hf⟩
  unfold resolveId at hf
  split at hf
  · rename_i t hfind
    split at hf
    · rename_i ht
      cases hf
      exact ⟨List.mem_of_find?_eq_some hfind, ht⟩
    · cases hf
  · cases hf

/-! ## Characterizing the selection dispatch -/

/-- The dispatch never touches the server records, the algorithm field, or
the weighted list: only the cursor may change. -/
theorem algStep_frame (rand : Nat → Nat) (hs hwl : List Server) (p : Pool) :
    (algStep rand hs hwl p).2.servers = p.servers ∧
    (algStep rand hs hwl p).2.algorithm = p.algorithm ∧
    (algStep rand hs hwl p).2.weightedServerList = p.weightedServerList := by
  unfold algStep
  split_ifs <;> simp

/-- A server tentatively chosen by the dispatch comes from `hs` or `hwl`. -/
theorem algStep_mem {rand : Nat → Nat} {hs hwl : List Server} {p : Pool} {s : Server}
    (h : (algStep rand hs hwl p).1 = some s) : s ∈ hs ∨ s ∈ hwl := by
  unfold algStep at h
  split_ifs at h <;>
    first
      | exact Or.inl (List.get?_mem h)
      | exact Or.inr (List.get?_mem h)
      | exact Option.noConfusion h

/-- With a non-empty healthy list, the dispatch plus defensive fallback
always returns a server drawn from `hs` or `hwl`, increments exactly that
server's counter in the (cursor-updated) pool, and changes nothing else. -/
theorem selectByAlgorithm_full (rand : Nat → Nat) (hs hwl : List Server) (p : Pool)
    (hne : hs ≠ []) :
    ∃ s, (s ∈ hs ∨ s ∈ hwl) ∧
      (selectByAlgorithm rand hs hwl p).1 = some s.id ∧
      (selectByAlgorithm rand hs hwl p).2.servers = incConn p.servers s.id ∧
      (selectByAlgorithm rand hs hwl p).2.algorithm = p.algorithm ∧
      (selectByAlgorithm rand hs hwl p).2.weightedServerList = p.weightedServerList := by
  have hframe := algStep_frame rand hs hwl p
  have hmain : ∃ s, (s ∈ hs ∨ s ∈ hwl) ∧
      selectByAlgorithm rand hs hwl p =
        (some s.id, incrementConnections s.id (algStep rand hs hwl p).2) := by
    unfold selectByAlgorithm
    cases hstep : (algStep rand hs hwl p).1 with
    | none =>
      cases hs with
      | nil => exact absurd rfl hne
      | cons a t =>
        refine ⟨a, Or.inl (List.mem_cons_self a t), ?_⟩
        simp [hstep]
    | some s =>
      refine ⟨s, algStep_mem hstep, ?_⟩
      simp [hstep]
  rcases hmain with ⟨s, hmem, heq⟩
  refine ⟨s, hmem, by rw [heq], ?_, ?_, ?_⟩
  · rw [heq]
    show incConn (algStep rand hs hwl p).2.servers s.id = incConn p.servers s.id
    rw [hframe.1]
  · rw [heq]
    show (algStep rand hs hwl p).2.algorithm = p.algorithm
    exact hframe.2.1
  · rw [heq]
    show (algStep rand hs hwl p).2.weightedServerList = p.weightedServerList
    exact hframe.2.2

/-- Members of the healthy list are healthy members of the pool. -/
theorem getHealthyServers_mem {p : Pool} {s : Server}
    (h : s ∈ getHealthyServers p) : s ∈ p.servers ∧ s.healthy = true := by
  have := List.mem_filter.mp h
  exact ⟨this.1, this.2⟩

/-- With at least one healthy backend, the dispatch phase returns the id of
a healthy member of the pool and changes the server records only by the
counter bump at that id. -/
theorem dispatchPhase_spec (rand : Nat → Nat) (p : Pool)
    (hemp : getHealthyServers p ≠ []) :
    ∃ s, s ∈ p.servers ∧ s.healthy = true ∧
      (dispatchPhase rand p).1 = some s.id ∧
      (dispatchPhase rand p).2.servers = incConn p.servers s.id := by
  have hpick : ∀ q : Pool, q.servers = p.servers →
      ∃ s, s ∈ p.servers ∧ s.healthy = true ∧
        (selectByAlgorithm rand (getHealthyServers p) (healthyWeighted p) q).1 = some s.id ∧
        (selectByAlgorithm rand (getHealthyServers p) (healthyWeighted p) q).2.servers =
          incConn p.servers s.id := by
    intro q hq
    rcases selectByAlgorithm_full rand (getHealthyServers p) (healthyWeighted p) q hemp with
      ⟨s, hmem, h1, h2, _, _⟩
    refine ⟨s, ?_, ?_, h1, by rw [h2, hq]⟩
    · rcases hmem with hm | hm
      · exact (getHealthyServers_mem hm).1
      · exact (healthyWeighted_mem hm).1
    · rcases hmem with hm | hm
      · exact (getHealthyServers_mem hm).2
      · exact (healthyWeighted_mem hm).2
  unfold dispatchPhase
  by_cases hfb : (strIncludes p.algorithm "WEIGHTED" &&
      (healthyWeighted p).isEmpty) = true
  · rw [if_pos hfb, if_neg (by simpa using hemp)]
    exact hpick { p with algorithm := "ROUND_ROBIN" } rfl
  · rw [if_neg hfb]
    exact hpick p rfl

/-- A sticky hit is a healthy member of the pool whose id is the sticky id. -/
theorem stickyTarget_mem {sticky : Option String} {p : Pool} {t : Server}
    (h : stickyTarget sticky (getHealthyServers p) = some t) :
    t ∈ p.servers ∧ t.healthy = true := by
  rcases sticky with _ | sid
  · exact Option.noConfusion h
  · simp only [stickyTarget] at h
    split at h
    · exact Option.noConfusion h
    · exact getHealthyServers_mem (List.mem_of_find?_eq_some h)

/-- Master characterization of `pick`: with no healthy backend it returns
`none` and leaves the pool untouched; otherwise it returns the id of a
healthy member of the pool and the only change to the server records is the
counter bump applied by `incConn` at that id. -/
theorem getNextServer_spec (rand : Nat → Nat) (sticky : Option String) (p : Pool) :
    (getHealthyServers p = [] ∧ getNextServer rand sticky p = (none, p)) ∨
    (getHealthyServers p ≠ [] ∧ ∃ s, s ∈ p.servers ∧ s.healthy = true ∧
      (getNextServer rand sticky p).1 = some s.id ∧
      (getNextServer rand sticky p).2.servers = incConn p.servers s.id) := by
  by_cases hemp : getHealthyServers p = []
  · left
    refine ⟨hemp, ?_⟩
    unfold getNextServer
    simp [hemp]
  · right
    refine ⟨hemp, ?_⟩
    unfold getNextServer
    rw [if_neg (by simpa using hemp)]
    cases hst : stickyTarget sticky (getHealthyServers p) with
    | some t =>
      simp only
      have ht := stickyTarget_mem hst
      exact ⟨t, ht.1, ht.2, rfl, rfl⟩
    | none =>
      simp only
      exact dispatchPhase_spec rand p hemp

/-- `pick` only ever changes counters: ids, health flags and weights of the
server records are untouched. -/
theorem getNextServer_proj (rand : Nat → Nat) (sticky : Option String) (p : Pool) :
    (getNextServer rand sticky p).2.servers.map (fun s => (s.id, s.healthy, s.weight)) =
      p.servers.map (fun s => (s.id, s.healthy, s.weight)) := by
  rcases getNextServer_spec rand sticky p with ⟨_, heq⟩ | ⟨_, s, _, _, _, hserv⟩
  · rw [heq]
  · rw [hserv]
    exact incConn_proj _ _

/-- `pick` returns `none` exactly when no backend is healthy. -/
theorem getNextServer_none_iff (rand : Nat → Nat) (sticky : Option String) (p : Pool) :
    (getNextServer rand sticky p).1 = none ↔ getHealthyServers p = [] := by
  rcases getNextServer_spec rand sticky p with ⟨he, heq⟩ | ⟨hne, s, _, _, h1, _⟩
  · rw [heq]
    simpa using he
  · rw [h1]
    simp [hne]

/-- After `setUnhealthyFirst`, with distinct ids, every server carrying the
given id is unhealthy. -/
theorem setUnhealthyFirst_all {l : List Server} {sid : String}
    (hnd : (l.map (fun s => s.id)).Nodup) :
    ∀ s' ∈ setUnhealthyFirst l sid, s'.id = sid → s'.healthy = false := by
  induction l with
  | nil => intro s' hmem; cases hmem
  | cons h t ih =>
    simp only [List.map_cons, List.nodup_cons] at hnd
    intro s' hmem hid
    by_cases hc : (h.id == sid) = true
    · rw [setUnhealthyFirst, if_pos hc] at hmem
      rcases List.mem_cons.mp hmem with rfl | hmem'
      · rfl
      · have hhid : h.id = sid := by simpa using hc
        exact absurd ((hhid.trans hid.symm) ▸ List.mem_map_of_mem (fun s => s.id) hmem')
          hnd.1
    · rw [setUnhealthyFirst, if_neg hc] at hmem
      rcases List.mem_cons.mp hmem with rfl | hmem'
      · exact absurd (by simpa using hid) hc
      · exact ih hnd.2 s' hmem' hid

/-- Transport of the "every record with this id is unhealthy" invariant
along equal (id, healthy, weight) projections. -/
theorem allIdUnhealthy_of_proj {l l' : List Server} {sid : String}
    (hp : l'.map (fun s => (s.id, s.healthy, s.weight)) =
      l.map (fun s => (s.id, s.healthy, s.weight)))
    (h : ∀ s ∈ l, s.id = sid → s.healthy = false) :
    ∀ s' ∈ l', s'.id = sid → s'.healthy = false := by
  intro s' hmem hid
  have hmem2 : (s'.id, s'.healthy, s'.weight) ∈
      l.map (fun s => (s.id, s.healthy, s.weight)) := by
    rw [← hp]
    exact List.mem_map_of_mem _ hmem
  rcases List.mem_map.mp hmem2 with ⟨s, hs, he⟩
  rw [Prod.mk.injEq, Prod.mk.injEq] at he
  rw [← he.2.1]
  exact h s hs (he.1.trans hid)

/-- `pick` never returns an id all of whose carriers are unhealthy. -/
theorem pick_not_unhealthy {rand : Nat → Nat} {sticky : Option String} {p : Pool}
    {sid : String} (h : ∀ s ∈ p.servers, s.id = sid → s.healthy = false) :
    (getNextServer rand sticky p).1 ≠ some sid := by
  rcases getNextServer_spec rand sticky p with ⟨_, heq⟩ | ⟨_, s, hmem, hh, h1, _⟩
  · rw [heq]
    simp
  · rw [h1]
    intro hcon
    injection hcon with hid
    have := h s hmem hid
    rw [hh] at this
    cases this

/-- Over any sequence of `pick` calls, an id all of whose carriers are
unhealthy is never returned and its carriers stay unhealthy. -/
theorem runPicks_never_unhealthy (inputs : List ((Nat → Nat) × Option String))
    (p : Pool) (sid : String)
    (h : ∀ s ∈ p.servers, s.id = sid → s.healthy = false) :
    (∀ o ∈ (runPicks inputs p).1, o ≠ some sid) ∧
    (∀ s' ∈ (runPicks inputs p).2.servers, s'.id = sid → s'.healthy = false) := by
  induction inputs generalizing p with
  | nil => exact ⟨fun o ho => absurd ho (List.not_mem_nil o), h⟩
  | cons x rest ih =>
    rcases x with ⟨r, st⟩
    have hnext : ∀ s ∈ (getNextServer r st p).2.servers, s.id = sid → s.healthy = false :=
      allIdUnhealthy_of_proj (getNextServer_proj r st p) h
    have hrest := ih (getNextServer r st p).2 hnext
    refine ⟨?_, ?_⟩
    · intro o ho
      simp only [runPicks] at ho
      rcases List.mem_cons.mp ho with rfl | ho'
      · exact pick_not_unhealthy h
      · exact hrest.1 o ho'
    · intro s' hmem
      simp only [runPicks] at hmem
      exact hrest.2 s' hmem

/-! ## The claims -/

/-- **C1.** For every pool state, `pick` with no sticky id returns `none`
iff the set of healthy backends is empty; whenever it returns a backend,
that backend's `healthy` flag is true at the moment of return and its
`activeConnections` counter has been incremented by one before the return. -/
theorem C1_pick_healthy_and_incremented (rand : Nat → Nat) (p : Pool)
    (hnd : (p.servers.map (fun s => s.id)).Nodup) :
    ((getNextServer rand none p).1 = none ↔ getHealthyServers p = []) ∧
    (∀ sid, (getNextServer rand none p).1 = some sid →
      ∃ s₀ ∈ p.servers, s₀.id = sid ∧
        ∃ s' ∈ (getNextServer rand none p).2.servers, s'.id = sid ∧
          s'.healthy = true ∧ s'.activeConnections = s₀.activeConnections + 1) := by
  refine ⟨getNextServer_none_iff rand none p, ?_⟩
  intro sid h1
  rcases getNextServer_spec rand none p with ⟨_, heq⟩ | ⟨_, s, hmem, hh, h1', hserv⟩
  · rw [heq] at h1
    cases h1
  · have hsid : s.id = sid := by
      have := h1'.symm.trans h1
      injection this
    rcases incConn_bumped hmem hnd with ⟨s', hmem', hid', hh', hc'⟩
    exact ⟨s, hmem, hsid, s', hserv ▸ hsid ▸ hmem', hid'.trans hsid,
      hh'.trans hh, hc'⟩

/-- Witness for C1 at a concrete pool. -/
theorem C1_witness :
    ((poolAB.servers.map (fun s => s.id)).Nodup) ∧
    (((getNextServer (fun _ => 0) none poolAB).1 = none ↔
        getHealthyServers poolAB = []) ∧
      (∀ sid, (getNextServer (fun _ => 0) none poolAB).1 = some sid →
        ∃ s₀ ∈ poolAB.servers, s₀.id = sid ∧
          ∃ s' ∈ (getNextServer (fun _ => 0) none poolAB).2.servers, s'.id = sid ∧
            s'.healthy = true ∧ s'.activeConnections = s₀.activeConnections + 1)) :=
  ⟨by decide, C1_pick_healthy_and_incremented (fun _ => 0) poolAB (by decide)⟩

/-- **C4.** After `markServerUnhealthy` on an id, no subsequent `pick`
(whatever the algorithm, randomness, or sticky ids of the calls) returns
that backend, and it stays unhealthy — only a health probe could flip the
flag back, and no probe occurs in a sequence of picks. -/
theorem C4_no_pick_after_markUnhealthy (p : Pool) (sid : String)
    (inputs : List ((Nat → Nat) × Option String))
    (hnd : (p.servers.map (fun s => s.id)).Nodup) :
    (∀ o ∈ (runPicks inputs (markServerUnhealthy sid p)).1, o ≠ some sid) ∧
    (∀ s' ∈ (runPicks inputs (markServerUnhealthy sid p)).2.servers,
      s'.id = sid → s'.healthy = false) :=
  runPicks_never_unhealthy inputs (markServerUnhealthy sid p) sid
    (setUnhealthyFirst_all hnd)

/-- Witness for C4 at a concrete pool. -/
theorem C4_witness :
    ((poolAB.servers.map (fun s => s.id)).Nodup) ∧
    ((∀ o ∈ (runPicks [((fun _ => 0), none), ((fun _ => 1), some "a:1")]
        (markServerUnhealthy "a:1" poolAB)).1, o ≠ some "a:1") ∧
     (∀ s' ∈ (runPicks [((fun _ => 0), none), ((fun _ => 1), some "a:1")]
        (markServerUnhealthy "a:1" poolAB)).2.servers,
        s'.id = "a:1" → s'.healthy = false)) :=
  ⟨by decide, C4_no_pick_after_markUnhealthy poolAB "a:1"
    [((fun _ => 0), none), ((fun _ => 1), some "a:1")] (by decide)⟩

/-- An absent sticky id never resolves. -/
theorem stickyTarget_none (hs : List Server) : stickyTarget none hs = none := rfl

/-- With distinct ids, two members sharing an id are the same record. -/
theorem nodup_id_unique {l : List Server}
    (hnd : (l.map (fun s => s.id)).Nodup) {s t : Server}
    (hs : s ∈ l) (ht : t ∈ l) (hid : s.id = t.id) : s = t := by
  have h1 := find?_id_eq_self hnd hs
  have h2 := find?_id_eq_self hnd ht
  rw [hid] at h1
  rw [h1] at h2
  injection h2

/-- **C5.** For every healthy backend `b`, `pick(b.id)` returns `b`
regardless of the configured algorithm and cursor; for an id with no
healthy carrier (unknown or unhealthy), `pick(id)` returns what the policy
would have produced with no sticky id. -/
theorem C5_sticky_precedence (rand : Nat → Nat) (p : Pool) :
    (∀ b ∈ p.servers, b.healthy = true → b.id ≠ "" →
      (getNextServer rand (some b.id) p).1 = some b.id) ∧
    (∀ sid, (∀ s ∈ getHealthyServers p, s.id ≠ sid) →
      (getNextServer rand (some sid) p).1 = (getNextServer rand none p).1) := by
  constructor
  · intro b hb hh hbid
    have hbm : b ∈ getHealthyServers p := List.mem_filter.mpr ⟨hb, by simpa using hh⟩
    have hemp : (getHealthyServers p).isEmpty = false := by
      have := List.ne_nil_of_mem hbm
      simpa [List.isEmpty_iff] using this
    have hsome : ((getHealthyServers p).find? (fun s => s.id == b.id)).isSome := by
      rw [List.find?_isSome]
      exact ⟨b, hbm, by simp⟩
    rcases hfind : (getHealthyServers p).find? (fun s => s.id == b.id) with _ | t
    · rw [hfind] at hsome
      cases hsome
    · have hts : t.id = b.id := by simpa using List.find?_some hfind
      have hst : stickyTarget (some b.id) (getHealthyServers p) = some t := by
        simp only [stickyTarget, if_neg hbid]
        exact hfind
      simp [getNextServer, hemp, hst, hts]
  · intro sid hnone
    by_cases hemp : (getHealthyServers p).isEmpty = true
    · simp [getNextServer, hemp]
    · have hst : stickyTarget (some sid) (getHealthyServers p) = none := by
        simp only [stickyTarget]
        by_cases hsid : sid = ""
        · rw [if_pos hsid]
        · rw [if_neg hsid, List.find?_eq_none]
          intro s hs
          simpa using hnone s hs
      simp [getNextServer, hemp, hst, stickyTarget_none]

/-- Witness for C5 at a concrete pool: `b:2` is healthy in `poolAB` and
`zzz` is unknown. -/
theorem C5_witness :
    ((getNextServer (fun _ => 0) (some "b:2") poolAB).1 = some "b:2") ∧
    ((getNextServer (fun _ => 0) (some "zzz") poolAB).1 =
      (getNextServer (fun _ => 0) none poolAB).1) :=
  ⟨(C5_sticky_precedence (fun _ => 0) poolAB).1 serverB (by decide) (by decide)
      (by decide),
   (C5_sticky_precedence (fun _ => 0) poolAB).2 "zzz" (by decide)⟩

/-- **C10.** A `pick` whose sticky id resolves to a healthy backend changes
only that backend's `activeConnections` (incremented by one): the cursor,
the weighted sequence, the algorithm field and every other backend record
are unchanged. -/
theorem C10_sticky_frame (rand : Nat → Nat) (p : Pool) (sid : String) (b : Server)
    (hnd : (p.servers.map (fun s => s.id)).Nodup)
    (hsid : sid ≠ "")
    (hb : (getHealthyServers p).find? (fun s => s.id == sid) = some b) :
    (getNextServer rand (some sid) p).1 = some b.id ∧
    (getNextServer rand (some sid) p).2.algorithm = p.algorithm ∧
    (getNextServer rand (some sid) p).2.currentIndex = p.currentIndex ∧
    (getNextServer rand (some sid) p).2.weightedServerList = p.weightedServerList ∧
    (getNextServer rand (some sid) p).2.servers = p.servers.map (fun s =>
      if s.id = b.id then { s with activeConnections := s.activeConnections + 1 }
      else s) := by
  have hbm := List.mem_of_find?_eq_some hb
  have hemp : (getHealthyServers p).isEmpty = false := by
    have := List.ne_nil_of_mem hbm
    simpa [List.isEmpty_iff] using this
  have hst : stickyTarget (some sid) (getHealthyServers p) = some b := by
    simp only [stickyTarget, if_neg hsid]
    exact hb
  have hred : getNextServer rand (some sid) p = (some b.id, incrementConnections b.id p) := by
    simp [getNextServer, hemp, hst]
  rw [hred]
  exact ⟨rfl, rfl, rfl, rfl, incConn_eq_map b.id hnd⟩

/-- Witness for C10 at a concrete pool. -/
theorem C10_witness :
    (getNextServer (fun _ => 0) (some "b:2") poolAB).1 = some serverB.id ∧
    (getNextServer (fun _ => 0) (some "b:2") poolAB).2.algorithm = poolAB.algorithm ∧
    (getNextServer (fun _ => 0) (some "b:2") poolAB).2.currentIndex = poolAB.currentIndex ∧
    (getNextServer (fun _ => 0) (some "b:2") poolAB).2.weightedServerList =
      poolAB.weightedServerList ∧
    (getNextServer (fun _ => 0) (some "b:2") poolAB).2.servers = poolAB.servers.map (fun s =>
      if s.id = serverB.id then { s with activeConnections := s.activeConnections + 1 }
      else s) :=
  C10_sticky_frame (fun _ => 0) poolAB "b:2" serverB (by decide) (by decide) (by decide)

/-- `decConn` with an id carried by no record is the identity. -/
theorem decConn_unknown {l : List Server} {sid : String}
    (h : ∀ s ∈ l, s.id ≠ sid) : decConn l sid = l := by
  induction l with
  | nil => rfl
  | cons a t ih =>
    have ha : ¬(a.id == sid) = true := by
      simpa using h a (List.mem_cons_self a t)
    rw [decConn, if_neg ha, ih (fun s hs => h s (List.mem_cons_of_mem a hs))]

/-- `decConn` when the first carrier's counter is zero is the identity. -/
theorem decConn_zero {l : List Server} {sid : String} {s : Server}
    (hfind : l.find? (fun t => t.id == sid) = some s)
    (hz : s.activeConnections = 0) : decConn l sid = l := by
  induction l with
  | nil => cases hfind
  | cons a t ih =>
    by_cases ha : (a.id == sid) = true
    · have hstep : (a :: t).find? (fun t => t.id == sid) = some a :=
        List.find?_cons_of_pos _ ha
      rw [hstep] at hfind
      injection hfind with hfind
      rw [decConn, if_pos ha, if_neg (by rw [hfind, hz]; decide)]
    · have hstep : (a :: t).find? (fun t => t.id == sid) =
          t.find? (fun t => t.id == sid) := List.find?_cons_of_neg _ ha
      rw [hstep] at hfind
      rw [decConn, if_neg ha, ih hfind]

/-- `decConn` keeps all counters non-negative. -/
theorem decConn_nonneg {l : List Server} {sid : String}
    (h : ∀ s ∈ l, 0 ≤ s.activeConnections) :
    ∀ s' ∈ decConn l sid, 0 ≤ s'.activeConnections := by
  induction l with
  | nil => intro s' hm; cases hm
  | cons a t ih =>
    intro s' hm
    by_cases ha : (a.id == sid) = true
    · rw [decConn, if_pos ha] at hm
      rcases List.mem_cons.mp hm with rfl | hm'
      · by_cases hz : a.activeConnections > 0
        · rw [if_pos hz]
          show 0 ≤ a.activeConnections - 1
          omega
        · rw [if_neg hz]
          exact h a (List.mem_cons_self a t)
      · exact h s' (List.mem_cons_of_mem a hm')
    · rw [decConn, if_neg ha] at hm
      rcases List.mem_cons.mp hm with rfl | hm'
      · exact h s' (List.mem_cons_self s' t)
      · exact ih (fun s hs => h s (List.mem_cons_of_mem a hs)) s' hm'

/-- **C8.** `release` never drives a counter negative: it is a no-op on an
unknown id (leaving the whole pool unchanged), a no-op when the carrier's
counter is already zero, and any sequence of releases preserves
non-negativity of every counter. -/
theorem C8_release_safe (p : Pool) :
    (∀ sid, (∀ s ∈ p.servers, s.id ≠ sid) → decrementConnections sid p = p) ∧
    (∀ sid s, getServerById p sid = some s → s.activeConnections = 0 →
      decrementConnections sid p = p) ∧
    (∀ ids : List String, (∀ s ∈ p.servers, 0 ≤ s.activeConnections) →
      ∀ s' ∈ (ids.foldl (fun q i => decrementConnections i q) p).servers,
        0 ≤ s'.activeConnections) := by
  refine ⟨?_, ?_, ?_⟩
  · intro sid h
    show { p with servers := decConn p.servers sid } = p
    rw [decConn_unknown h]
  · intro sid s hfind hz
    show { p with servers := decConn p.servers sid } = p
    rw [decConn_zero hfind hz]
  · intro ids
    induction ids generalizing p with
    | nil => intro h s' hm; exact h s' hm
    | cons i rest ih =>
      intro h s' hm
      exact ih (decrementConnections i p) (decConn_nonneg h) s' hm

/-- Witness for C8 at a concrete pool. -/
theorem C8_witness :
    (decrementConnections "zzz" poolAB = poolAB) ∧
    (decrementConnections "a:1" poolAB = poolAB) ∧
    (∀ s' ∈ (["a:1", "a:1", "b:2"].foldl
        (fun q i => decrementConnections i q) poolAB).servers,
      0 ≤ s'.activeConnections) :=
  ⟨(C8_release_safe poolAB).1 "zzz" (by decide),
   (C8_release_safe poolAB).2.1 "a:1" serverA (by decide) (by decide),
   (C8_release_safe poolAB).2.2 ["a:1", "a:1", "b:2"] (by decide)⟩

/-- The weighted rebuild touches neither the server records nor the cursor. -/
theorem recalc_frame (r : Pool) :
    (recalculateWeightsIfNeeded r).servers = r.servers ∧
    (recalculateWeightsIfNeeded r).currentIndex = r.currentIndex := by
  unfold recalculateWeightsIfNeeded buildWeightedList
  split_ifs <;> simp

/-- With distinct ids, the `Map` lookup of `updateServers` finds exactly the
unique carrier of the id. -/
theorem mapLookup_eq_self {l : List Server}
    (hnd : (l.map (fun s => s.id)).Nodup) {s : Server} (hmem : s ∈ l) :
    mapLookup l s.id = some s := by
  unfold mapLookup
  have hnd' : (l.reverse.map (fun s => s.id)).Nodup := by
    rw [List.map_reverse]
    exact List.nodup_reverse.mpr hnd
  exact find?_id_eq_self hnd' (List.mem_reverse.mpr hmem)

/-- **C7.** After `updateServers`, a backend whose id survives keeps its
pre-replace `healthy` flag and `activeConnections`, a backend with a new id
starts healthy with a zero counter, and the round-robin cursor is reset
to -1. -/
theorem C7_update_preserves (p : Pool) (cfgs : List ServerConfig)
    (hnd : (p.servers.map (fun s => s.id)).Nodup) :
    (updateServers cfgs p).currentIndex = -1 ∧
    ∀ s' ∈ (updateServers cfgs p).servers,
      (∀ s ∈ p.servers, s.id = s'.id →
        s'.healthy = s.healthy ∧ s'.activeConnections = s.activeConnections) ∧
      ((∀ s ∈ p.servers, s.id ≠ s'.id) →
        s'.healthy = true ∧ s'.activeConnections = 0) := by
  unfold updateServers
  have hframe := recalc_frame
    { p with
      servers := cfgs.map fun c =>
        match mapLookup p.servers (mkId c.host c.port) with
        | some ex =>
          { host := c.host, port := c.port, id := mkId c.host c.port,
            healthy := ex.healthy, weight := c.weight.getD 1,
            activeConnections := ex.activeConnections }
        | none =>
          { host := c.host, port := c.port, id := mkId c.host c.port,
            healthy := true, weight := c.weight.getD 1, activeConnections := 0 },
      currentIndex := -1 }
  refine ⟨by rw [hframe.2], ?_⟩
  intro s' hs'
  rw [hframe.1] at hs'
  rcases List.mem_map.mp hs' with ⟨c, _, hc⟩
  rcases hlook : mapLookup p.servers (mkId c.host c.port) with _ | ex
  · rw [hlook] at hc
    constructor
    · intro s hsm hids
      exfalso
      have hfound := mapLookup_eq_self hnd hsm
      rw [← hc] at hids
      rw [hids] at hfound
      rw [hfound] at hlook
      cases hlook
    · intro _
      rw [← hc]
      exact ⟨rfl, rfl⟩
  · rw [hlook] at hc
    have hexm : ex ∈ p.servers := by
      have := List.mem_of_find?_eq_some hlook
      exact List.mem_reverse.mp this
    have hexid : ex.id = mkId c.host c.port := by
      simpa using List.find?_some hlook
    constructor
    · intro s hsm hids
      have hseq : s = ex := by
        apply nodup_id_unique hnd hsm hexm
        rw [hids, ← hc, hexid]
      rw [hseq, ← hc]
      exact ⟨rfl, rfl⟩
    · intro hall
      exfalso
      apply hall ex hexm
      rw [hexid, ← hc]

/-- Witness for C7 at a concrete pool: `a:1` survives, `c:3` is new. -/
theorem C7_witness :
    (updateServers [⟨"a", 1, some 2⟩, ⟨"c", 3, none⟩] poolAB).currentIndex = -1 ∧
    ∀ s' ∈ (updateServers [⟨"a", 1, some 2⟩, ⟨"c", 3, none⟩] poolAB).servers,
      (∀ s ∈ poolAB.servers, s.id = s'.id →
        s'.healthy = s.healthy ∧ s'.activeConnections = s.activeConnections) ∧
      ((∀ s ∈ poolAB.servers, s.id ≠ s'.id) →
        s'.healthy = true ∧ s'.activeConnections = 0) :=
  C7_update_preserves poolAB [⟨"a", 1, some 2⟩, ⟨"c", 3, none⟩] (by decide)

/-- **C2 (code bug).** A request whose upstream errors and whose client
connection then closes before any response was finished fires two
decrements: the per-call `proxy.web` error callback (worker.js line 96)
runs, and the guarded `req.on('close')` handler (lines 108-113) runs again
since `res.writableEnded` is still false — the exactly-once release
invariant demands a total of one. -/
theorem C2_double_decrement :
    traceDecrements [ReqEvent.proxyError, ReqEvent.clientClose false] = 2 := rfl

/-- **C3 (counterexample).** After a health flip of `b:2` and the weighted
rebuild, `weightedServerList` still contains an entry for the unhealthy
backend `b:2`, contradicting "contains no entry for an unhealthy backend". -/
theorem C3_counterexample :
    "b:2" ∈ (recalculateWeightsIfNeeded
      (markServerUnhealthy "b:2" poolAB)).weightedServerList ∧
    (getServerById (recalculateWeightsIfNeeded
      (markServerUnhealthy "b:2" poolAB)) "b:2").map (fun s => s.healthy) =
      some false := by
  decide

/-- `filterMap` of a function sending `a` to `some b` over `replicate n a`. -/
theorem filterMap_replicate_some {α β : Type} {f : α → Option β} {a : α} {b : β}
    (h : f a = some b) (n : Nat) :
    (List.replicate n a).filterMap f = List.replicate n b := by
  induction n with
  | zero => rfl
  | succ n ih => simp [List.replicate_succ, List.filterMap_cons, h, ih]

/-- `filterMap` of a function sending `a` to `none` over `replicate n a`. -/
theorem filterMap_replicate_none {α β : Type} {f : α → Option β} {a : α}
    (h : f a = none) (n : Nat) :
    (List.replicate n a).filterMap f = [] := by
  induction n with
  | zero => rfl
  | succ n ih => simp [List.replicate_succ, List.filterMap_cons, h, ih]

/-- Resolving the ids of `weightedIds l` against a superset `full` with
distinct ids and filtering by health yields the healthy records of `l`, each
repeated `weight` times. -/
theorem healthyWeighted_blocks (full : List Server)
    (hnd : (full.map (fun s => s.id)).Nodup) :
    ∀ l : List Server, (∀ s ∈ l, s ∈ full) →
      (weightedIds l).filterMap (resolveId full) =
        expand (l.filter (fun s => s.healthy)) := by
  intro l
  induction l with
  | nil => intro _; rfl
  | cons a t ih =>
    intro hsub
    have ha : a ∈ full := hsub a (List.mem_cons_self a t)
    have hfa := find?_id_eq_self hnd ha
    rw [weightedIds, List.filterMap_append]
    by_cases hh : a.healthy = true
    · have hsome : resolveId full a.id = some a := by
        simp [resolveId, hfa, hh]
      rw [filterMap_replicate_some hsome,
        ih (fun s hs => hsub s (List.mem_cons_of_mem a hs))]
      simp [List.filter_cons, hh, expand]
    · have hnone : resolveId full a.id = none := by
        simp [resolveId, hfa, hh]
      rw [filterMap_replicate_none hnone,
        ih (fun s hs => hsub s (List.mem_cons_of_mem a hs))]
      simp [List.filter_cons, hh]

/-- When `weightedServerList` is the rebuild of the current servers, the
live weighted view is exactly the healthy backends expanded by weight. -/
theorem healthyWeighted_eq_expand {p : Pool}
    (hnd : (p.servers.map (fun s => s.id)).Nodup)
    (hwl : p.weightedServerList = weightedIds p.servers) :
    healthyWeighted p = expand (p.servers.filter (fun s => s.healthy)) := by
  unfold healthyWeighted
  rw [hwl]
  exact healthyWeighted_blocks p.servers hnd p.servers (fun s hs => hs)

/-- **C3 (amended).** `buildWeightedList` keeps every configured backend,
healthy or not, `weight` times; the healthy filtering happens at pick time:
whenever `weightedServerList` is the rebuild of the current servers, the
live weighted view consists of exactly the healthy backends, each repeated
`weight` times in configured order, and contains no unhealthy entry. -/
theorem C3_live_weighted_view (p : Pool)
    (hnd : (p.servers.map (fun s => s.id)).Nodup)
    (hwl : p.weightedServerList = weightedIds p.servers) :
    healthyWeighted p = expand (p.servers.filter (fun s => s.healthy)) ∧
    ∀ s ∈ healthyWeighted p, s.healthy = true :=
  ⟨healthyWeighted_eq_expand hnd hwl, fun _ hs => (healthyWeighted_mem hs).2⟩

/-- Witness for the amended C3 at a concrete pool with a flipped backend. -/
theorem C3_witness :
    (((markServerUnhealthy "b:2" poolAB).servers.map (fun s => s.id)).Nodup) ∧
    ((markServerUnhealthy "b:2" poolAB).weightedServerList =
      weightedIds (markServerUnhealthy "b:2" poolAB).servers) ∧
    (healthyWeighted (markServerUnhealthy "b:2" poolAB) =
      expand ((markServerUnhealthy "b:2" poolAB).servers.filter (fun s => s.healthy)) ∧
    ∀ s ∈ healthyWeighted (markServerUnhealthy "b:2" poolAB), s.healthy = true) :=
  ⟨by decide, by decide,
    C3_live_weighted_view (markServerUnhealthy "b:2" poolAB) (by decide) (by decide)⟩

/-- Zeta-reduced shape of `selectByAlgorithm`. -/
theorem selectByAlgorithm_eq (rand : Nat → Nat) (hs hwl : List Server) (q : Pool) :
    selectByAlgorithm rand hs hwl q =
      match (match (algStep rand hs hwl q).1 with
             | some s => some s
             | none => if hs.isEmpty then none else hs.get? 0) with
      | some s => (some s.id, incrementConnections s.id (algStep rand hs hwl q).2)
      | none => (none, (algStep rand hs hwl q).2) := rfl

/-- The dispatch-plus-fallback never changes the algorithm field. -/
theorem selectByAlgorithm_alg (rand : Nat → Nat) (hs hwl : List Server) (q : Pool) :
    (selectByAlgorithm rand hs hwl q).2.algorithm = q.algorithm := by
  rw [selectByAlgorithm_eq]
  have hframe := algStep_frame rand hs hwl q
  cases hstep : (algStep rand hs hwl q).1 with
  | some s =>
    simp only [hstep]
    exact hframe.2.1
  | none =>
    simp only [hstep]
    cases hch : (if hs.isEmpty then none else hs.get? 0 :
        Option Server) with
    | some s =>
      simp only [hch]
      exact hframe.2.1
    | none =>
      simp only [hch]
      exact hframe.2.1

/-- **C9 (counterexample).** On a weighted pool whose weighted sequence is
empty while a healthy backend remains, a single `pick` overwrites the
algorithm field: `"WEIGHTED_ROUND_ROBIN"` before the call,
`"ROUND_ROBIN"` after it — the fallback is not per-call. -/
theorem C9_counterexample :
    poolW0.algorithm = "WEIGHTED_ROUND_ROBIN" ∧
    (getNextServer (fun _ => 0) none poolW0).2.algorithm = "ROUND_ROBIN" ∧
    (getNextServer (fun _ => 0) none poolW0).1 = some "a:1" := by
  decide

/-- **C9 (amended).** The weighted-empty fallback persistently overwrites
the algorithm field: a `pick` that takes the fallback leaves the pool's
algorithm at `"ROUND_ROBIN"` for all later calls, and a `pick` that does
not take it leaves the field unchanged. -/
theorem C9_fallback_mutates_algorithm (rand : Nat → Nat) (sticky : Option String)
    (p : Pool) :
    (getNextServer rand sticky p).2.algorithm =
      if takesWeightedFallback sticky p then "ROUND_ROBIN" else p.algorithm := by
  by_cases hemp : (getHealthyServers p).isEmpty = true
  · have ht : takesWeightedFallback sticky p = false := by
      unfold takesWeightedFallback
      rw [hemp]
      rfl
    simp [getNextServer, hemp, ht]
  · have hempf : (getHealthyServers p).isEmpty = false := by
      simpa [Bool.not_eq_true] using hemp
    cases hst : stickyTarget sticky (getHealthyServers p) with
    | some t =>
      have ht : takesWeightedFallback sticky p = false := by
        unfold takesWeightedFallback stickyResolves
        rw [hst]
        simp
      have hred : getNextServer rand sticky p =
          (some t.id, incrementConnections t.id p) := by
        simp [getNextServer, hemp, hst]
      rw [hred, ht]
      rfl
    | none =>
      have hres : stickyResolves sticky p = false := by
        unfold stickyResolves
        rw [hst]
        rfl
      have hred : getNextServer rand sticky p = dispatchPhase rand p := by
        simp [getNextServer, hemp, hst]
      rw [hred]
      unfold dispatchPhase
      by_cases hfb : (strIncludes p.algorithm "WEIGHTED" &&
          (healthyWeighted p).isEmpty) = true
      · rw [if_pos hfb, if_neg (by simp [hempf])]
        have ht : takesWeightedFallback sticky p = true := by
          unfold takesWeightedFallback
          rw [hres, hempf, hfb]
          rfl
        rw [ht, if_pos rfl]
        exact selectByAlgorithm_alg rand (getHealthyServers p) (healthyWeighted p)
          { p with algorithm := "ROUND_ROBIN" }
      · rw [if_neg hfb]
        have ht : takesWeightedFallback sticky p = false := by
          unfold takesWeightedFallback
          rw [hres]
          rcases hfb2 : (strIncludes p.algorithm "WEIGHTED" &&
              (healthyWeighted p).isEmpty) with _ | _
          · simp
          · exact absurd hfb2 hfb
        rw [ht, if_neg (by simp)]
        exact selectByAlgorithm_alg rand (getHealthyServers p) (healthyWeighted p) p

/-! ## The WRR distribution -/

/-- Enumerating a list by index with a default reproduces the list. -/
theorem range_map_getD {α : Type} (l : List α) (d : α) :
    (List.range l.length).map (fun i => l.getD i d) = l := by
  induction l with
  | nil => rfl
  | cons a t ih =>
    rw [List.length_cons, List.range_succ_eq_map, List.map_cons, List.map_map]
    have hcomp : ((fun i => (a :: t).getD i d) ∘ Nat.succ) = fun i => t.getD i d := by
      funext i
      rfl
    rw [hcomp, ih]
    rfl

/-- One full cycle of indexed reads starting anywhere is a rotation. -/
theorem map_getD_cycle (l : List String) (b : Nat) (d : String) :
    (List.range l.length).map (fun j => l.getD ((b + j) % l.length) d) =
      l.rotate b := by
  have hlen : (l.rotate b).length = l.length := List.length_rotate l b
  have hcong : (List.range l.length).map (fun j => l.getD ((b + j) % l.length) d) =
      (List.range l.length).map (fun j => (l.rotate b).getD j d) := by
    apply List.map_congr_left
    intro j hj
    have hjlt : j < l.length := List.mem_range.mp hj
    rw [List.getD_eq_get?, List.getD_eq_get?, List.get?_rotate hjlt, Nat.add_comm j b]
  rw [hcong, ← hlen, range_map_getD]

/-- One full cycle of indexed reads has the same counts as the list. -/
theorem count_cycle (l : List String) (b : Nat) (d x : String) :
    ((List.range l.length).map (fun j => l.getD ((b + j) % l.length) d)).count x =
      l.count x := by
  rw [map_getD_cycle l b d]
  exact List.Perm.count_eq (List.rotate_perm l b) x

/-- `k` full cycles of indexed reads starting anywhere count every element
`k` times. -/
theorem count_blocks (l : List String) (d x : String) :
    ∀ (k b : Nat),
      ((List.range (k * l.length)).map
        (fun j => l.getD ((b + j) % l.length) d)).count x = k * l.count x := by
  intro k
  induction k with
  | zero => intro b; simp
  | succ k ih =>
    intro b
    have hsplit : (k + 1) * l.length = k * l.length + l.length := by ring
    rw [hsplit, List.range_add, List.map_append, List.count_append, List.map_map]
    have hcomp : ((fun j => l.getD ((b + j) % l.length) d) ∘
        (fun j => k * l.length + j)) = fun j => l.getD ((b + j) % l.length) d := by
      funext j
      simp only [Function.comp]
      congr 1
      have h1 : b + (k * l.length + j) = (b + j) + k * l.length := by ring
      rw [h1, Nat.add_mul_mod_self_right]
    rw [hcomp, ih b, count_cycle l b d x]
    ring

/-- Counting a value under the `some` constructor. -/
theorem count_some_map (l : List String) (x : String) :
    (l.map some).count (some x) = l.count x := by
  induction l with
  | nil => rfl
  | cons a t ih => simp [List.count_cons, ih]

/-- Every entry of `weightedIds` is the id of some record. -/
theorem weightedIds_mem {l : List Server} {x : String}
    (h : x ∈ weightedIds l) : x ∈ l.map (fun s => s.id) := by
  induction l with
  | nil => cases h
  | cons a t ih =>
    rw [weightedIds] at h
    rcases List.mem_append.mp h with hrep | hrest
    · rw [List.eq_of_mem_replicate hrep]
      exact List.mem_map_of_mem _ (List.mem_cons_self a t)
    · exact List.mem_cons_of_mem _ (ih hrest)

/-- With distinct ids, a member's id occurs in `weightedIds` exactly
`weight` times. -/
theorem count_weightedIds {l : List Server}
    (hnd : (l.map (fun s => s.id)).Nodup) {s : Server} (hmem : s ∈ l) :
    (weightedIds l).count s.id = s.weight := by
  induction l with
  | nil => cases hmem
  | cons a t ih =>
    simp only [List.map_cons, List.nodup_cons] at hnd
    rw [weightedIds, List.count_append]
    rcases List.mem_cons.mp hmem with rfl | hmem'
    · rw [List.count_replicate_self]
      have hz : (weightedIds t).count s.id = 0 := by
        rw [List.count_eq_zero]
        intro hmm
        exact hnd.1 (weightedIds_mem hmm)
      omega
    · have ha : ¬(a.id == s.id) = true := by
        simp only [beq_iff_eq]
        intro he
        exact hnd.1 (he ▸ List.mem_map_of_mem (fun s => s.id) hmem')
      rw [List.count_replicate, if_neg ha, ih hnd.2 hmem']
      omega

/-- Each backend repeated `weight` times carries ids `weightedIds`. -/
theorem expand_map_id (l : List Server) :
    (expand l).map (fun s => s.id) = weightedIds l := by
  induction l with
  | nil => rfl
  | cons a t ih => rw [expand, weightedIds, List.map_append, List.map_replicate, ih]

/-- `incConn` preserves the ids. -/
theorem incConn_ids (l : List Server) (sid : String) :
    (incConn l sid).map (fun s => s.id) = l.map (fun s => s.id) := by
  induction l with
  | nil => rfl
  | cons h t ih =>
    by_cases hc : (h.id == sid) = true
    · simp [incConn, hc]
    · simp [incConn, hc, ih]

/-- `incConn` preserves an all-healthy pool. -/
theorem allHealthy_incConn {l : List Server} {sid : String}
    (h : ∀ s ∈ l, s.healthy = true) :
    ∀ s' ∈ incConn l sid, s'.healthy = true := by
  intro s' hm
  rcases incConn_mem_proj hm with ⟨s, hs, _, hh, _⟩
  rw [hh]
  exact h s hs

/-- One WRR `pick` on a fully healthy, freshly rebuilt pool whose cursor
satisfies `currentIndex + 1 = b` returns the weighted-sequence entry at
index `b mod W` and re-establishes every invariant with the cursor advanced
accordingly. -/
theorem wrr_step (rand : Nat → Nat) (p : Pool) (b : Nat)
    (halg : p.algorithm = "WEIGHTED_ROUND_ROBIN")
    (hall : ∀ s ∈ p.servers, s.healthy = true)
    (hwl : p.weightedServerList = weightedIds p.servers)
    (hnd : (p.servers.map (fun s => s.id)).Nodup)
    (hW : weightedIds p.servers ≠ [])
    (hcur : p.currentIndex + 1 = (b : Int)) :
    (getNextServer rand none p).1 =
      some ((weightedIds p.servers).getD
        (b % (weightedIds p.servers).length) "") ∧
    (getNextServer rand none p).2.algorithm = "WEIGHTED_ROUND_ROBIN" ∧
    (∀ s ∈ (getNextServer rand none p).2.servers, s.healthy = true) ∧
    (getNextServer rand none p).2.weightedServerList =
      weightedIds (getNextServer rand none p).2.servers ∧
    (((getNextServer rand none p).2.servers.map (fun s => s.id)).Nodup) ∧
    weightedIds (getNextServer rand none p).2.servers = weightedIds p.servers ∧
    (getNextServer rand none p).2.currentIndex + 1 =
      ((b % (weightedIds p.servers).length + 1 : Nat) : Int) := by
  have hsrv : p.servers ≠ [] := by
    intro h
    rw [h] at hW
    exact hW rfl
  have hhs : getHealthyServers p = p.servers :=
    List.filter_eq_self.mpr (fun s hs => by simpa using hall s hs)
  have hemp : (getHealthyServers p).isEmpty = false := by
    rw [hhs]
    simpa [List.isEmpty_iff] using hsrv
  have hexp : healthyWeighted p = expand p.servers := by
    rw [healthyWeighted_eq_expand hnd hwl,
      List.filter_eq_self.mpr (fun s hs => by simpa using hall s hs)]
  have hM : (healthyWeighted p).map (fun s => s.id) = weightedIds p.servers := by
    rw [hexp, expand_map_id]
  have hlen : (healthyWeighted p).length = (weightedIds p.servers).length := by
    rw [← hM, List.length_map]
  have hMlenpos : 0 < (weightedIds p.servers).length := List.length_pos.mpr hW
  have hwlne : healthyWeighted p ≠ [] := by
    intro h
    rw [h] at hlen
    rw [← hlen] at hMlenpos
    exact Nat.lt_irrefl 0 hMlenpos
  have hwlEmptyFalse : (healthyWeighted p).isEmpty = false := by
    simpa [List.isEmpty_iff] using hwlne
  have hgns : getNextServer rand none p = dispatchPhase rand p := by
    simp [getNextServer, hemp, stickyTarget_none]
  have hdp : dispatchPhase rand p =
      selectByAlgorithm rand (getHealthyServers p) (healthyWeighted p) p := by
    unfold dispatchPhase
    rw [if_neg (by simp [hwlEmptyFalse])]
  have hblt : b % (healthyWeighted p).length < (healthyWeighted p).length :=
    Nat.mod_lt b (by rw [hlen]; exact hMlenpos)
  obtain ⟨t, hget⟩ : ∃ t, (healthyWeighted p).get? (b % (healthyWeighted p).length) =
      some t := by
    cases hg : (healthyWeighted p).get? (b % (healthyWeighted p).length) with
    | none =>
      have := List.get?_eq_none.mp hg
      omega
    | some t => exact ⟨t, rfl⟩
  have hi : (p.currentIndex + 1).tmod ((healthyWeighted p).length : Int) =
      ((b % (healthyWeighted p).length : Nat) : Int) := by
    rw [hcur, ← Int.ofNat_tmod]
  have hstep : algStep rand (getHealthyServers p) (healthyWeighted p) p =
      (some t, { p with
        currentIndex := ((b % (healthyWeighted p).length : Nat) : Int) }) := by
    unfold algStep
    rw [halg, if_neg (by decide), if_neg (by decide), if_pos rfl,
      if_neg (by simp [hwlEmptyFalse]), hi,
      if_pos (Int.ofNat_nonneg _), Int.toNat_ofNat, hget]
  have hsel : selectByAlgorithm rand (getHealthyServers p) (healthyWeighted p) p =
      (some t.id, incrementConnections t.id { p with
        currentIndex := ((b % (healthyWeighted p).length : Nat) : Int) }) := by
    rw [selectByAlgorithm_eq, hstep]
  have hpick : getNextServer rand none p =
      (some t.id, incrementConnections t.id { p with
        currentIndex := ((b % (healthyWeighted p).length : Nat) : Int) }) := by
    rw [hgns, hdp, hsel]
  have htid : t.id = (weightedIds p.servers).getD
      (b % (weightedIds p.servers).length) "" := by
    have h1 : ((healthyWeighted p).map (fun s => s.id)).get?
        (b % (healthyWeighted p).length) = some t.id := by
      rw [List.get?_map, hget]
      rfl
    rw [hM] at h1
    rw [List.getD_eq_get?, ← hlen, h1]
    rfl
  rw [hpick]
  refine ⟨by rw [htid], halg, ?_, ?_, ?_, ?_, ?_⟩
  · exact allHealthy_incConn hall
  · show p.weightedServerList = weightedIds (incConn p.servers t.id)
    rw [weightedIds_incConn, hwl]
  · show ((incConn p.servers t.id).map (fun s => s.id)).Nodup
    rw [incConn_ids]
    exact hnd
  · show weightedIds (incConn p.servers t.id) = weightedIds p.servers
    exact weightedIds_incConn p.servers t.id
  · show ((b % (healthyWeighted p).length : Nat) : Int) + 1 =
      ((b % (weightedIds p.servers).length + 1 : Nat) : Int)
    rw [hlen]
    push_cast
    ring

/-- Iterated WRR picks on a fully healthy, freshly rebuilt pool read the
weighted sequence cyclically from the current cursor position. -/
theorem runPicks_wrr (inputs : List ((Nat → Nat) × Option String)) :
    ∀ (p : Pool) (b : Nat),
      (∀ x ∈ inputs, x.2 = none) →
      p.algorithm = "WEIGHTED_ROUND_ROBIN" →
      (∀ s ∈ p.servers, s.healthy = true) →
      p.weightedServerList = weightedIds p.servers →
      ((p.servers.map (fun s => s.id)).Nodup) →
      weightedIds p.servers ≠ [] →
      p.currentIndex + 1 = (b : Int) →
      (runPicks inputs p).1 =
        (List.range inputs.length).map
          (fun j => some ((weightedIds p.servers).getD
            ((b + j) % (weightedIds p.servers).length) "")) := by
  induction inputs with
  | nil => intros; rfl
  | cons x rest ih =>
    rcases x with ⟨r, st⟩
    intro p b hsticky halg hall hwl hnd hW hcur
    have hst : st = none := hsticky (r, st) (List.mem_cons_self _ _)
    subst hst
    obtain ⟨h1, halg', hall', hwl', hnd', hwid', hcur'⟩ :=
      wrr_step r p b halg hall hwl hnd hW hcur
    simp only [runPicks]
    rw [h1]
    have hW' : weightedIds (getNextServer r none p).2.servers ≠ [] := by
      rw [hwid']
      exact hW
    have hrest := ih (getNextServer r none p).2
      (b % (weightedIds p.servers).length + 1)
      (fun y hy => hsticky y (List.mem_cons_of_mem _ hy))
      halg' hall' hwl' hnd' hW' hcur'
    rw [hrest, hwid', List.length_cons, List.range_succ_eq_map, List.map_cons,
      List.map_map]
    congr 1
    apply List.map_congr_left
    intro j hj
    simp only [Function.comp]
    congr 2
    have h2 : b % (weightedIds p.servers).length + 1 + j =
        b % (weightedIds p.servers).length + (1 + j) := by omega
    rw [h2, Nat.mod_add_mod]
    congr 1
    omega

/-- **C6.** Under `WEIGHTED_ROUND_ROBIN` with a fully healthy pool and no
sticky ids, `k * sum(weights)` successive picks return each backend exactly
`k * weight` times; in particular, on the fresh pool
`[{A,w=5},{B,w=3},{C,w=1},{D,w=1}]` ten successive picks yield exactly five
`A`, three `B`, one `C`, one `D`, with each backend's occurrences contiguous
in configured order. -/
theorem C6_wrr_distribution :
    (∀ (p : Pool) (k b : Nat) (inputs : List ((Nat → Nat) × Option String)),
      p.algorithm = "WEIGHTED_ROUND_ROBIN" →
      (∀ s ∈ p.servers, s.healthy = true) →
      p.weightedServerList = weightedIds p.servers →
      ((p.servers.map (fun s => s.id)).Nodup) →
      weightedIds p.servers ≠ [] →
      p.currentIndex + 1 = (b : Int) →
      inputs.length = k * (weightedIds p.servers).length →
      (∀ x ∈ inputs, x.2 = none) →
      ∀ s ∈ p.servers, ((runPicks inputs p).1).count (some s.id) = k * s.weight) ∧
    (runPicks (List.replicate 10 ((fun _ => 0), none)) poolABCD).1 =
      [some "A:1", some "A:1", some "A:1", some "A:1", some "A:1",
       some "B:2", some "B:2", some "B:2", some "C:3", some "D:4"] := by
  constructor
  · intro p k b inputs halg hall hwl hnd hW hcur hlen hsticky s hmem
    rw [runPicks_wrr inputs p b hsticky halg hall hwl hnd hW hcur, hlen]
    have hmap : (List.range (k * (weightedIds p.servers).length)).map
        (fun j => some ((weightedIds p.servers).getD
          ((b + j) % (weightedIds p.servers).length) "")) =
        ((List.range (k * (weightedIds p.servers).length)).map
          (fun j => (weightedIds p.servers).getD
            ((b + j) % (weightedIds p.servers).length) "")).map some := by
      rw [List.map_map]
      rfl
    rw [hmap, count_some_map,
      count_blocks (weightedIds p.servers) "" s.id k b,
      count_weightedIds hnd hmem]
  · decide

/-- Witness for the universal part of C6 at the concrete WRR pool with
`k = 1`: backend `A` (weight 5) is chosen exactly five times in ten picks. -/
theorem C6_witness :
    (runPicks (List.replicate 10 ((fun _ => 0), none)) poolABCD).1.count
      (some "A:1") = 1 * 5 :=
  C6_wrr_distribution.1 poolABCD 1 0 (List.replicate 10 ((fun _ => 0), none))
    (by decide) (by decide) (by decide) (by decide) (by decide) (by decide)
    (by decide) (by decide)
    { host := "A", port := 1, id := "A:1", healthy := true, weight := 5,
      activeConnections := 0 }
    (by decide)

end LoadBalancer
